import Mathlib

/-!
Verification of `src/simulador.py`, a memory-budget admission scheduler.

The Python program is embedded shallowly:
* Python integers are unbounded, so integer fields become `Int`.
* `MemoryManager` becomes a two-field structure; its methods become pure
  state-passing functions.  The methods cannot raise, so they are total
  functions (no `Option`/`Except`).
* The scheduler's admission pass `_start_if_possible` (an index-based scan
  that removes elements as it walks) becomes a structural recursion over the
  queue list, which performs the same removals.
* Wall-clock time is abstracted into polling ticks: one tick is one 0.1 s
  `time.sleep(0.1)` interval of `Scheduler.run`, and a process's
  `duration_s` is modelled as a number of ticks (`Nat`).  Worker threads
  are modelled by an explicit running set of (process, remaining ticks)
  pairs that advances during each sleep.
* Wall-clock timestamps (`t_start`, `t_end`, floats read from the clock)
  and log formatting are outside the embedding; events are instead
  collected in lists (`started`, `discarded`, `finished`).
-/

namespace Simulador

/-- Memory Ledger state, mirroring the `MemoryManager` class of
`src/simulador.py`: `total_mb` is fixed at construction, `used_mb` is the
mutable usage counter.  The `threading.Lock` only serialises the methods;
in this sequential embedding each method is one atomic step. -/
structure MemoryManager where
  total_mb : Int
  used_mb : Int
deriving Repr, DecidableEq

/-- Construction `MemoryManager(total_mb)`: usage starts at 0. -/
def MemoryManager.init (total : Int) : MemoryManager :=
  { total_mb := total, used_mb := 0 }

/-- Embeds `MemoryManager.try_alloc(pid, mem_mb)`: if `used_mb + mem_mb <=
total_mb` then add `mem_mb` to `used_mb` and return `True`, otherwise return
`False` and leave the state unchanged.  The `pid` argument is unused by the
source logic but kept for fidelity.  The Python method raises no exception,
so the embedding is a total function. -/
def MemoryManager.try_alloc (m : MemoryManager) (pid : Int) (mem_mb : Int) :
    Bool × MemoryManager :=
  if m.used_mb + mem_mb ≤ m.total_mb then
    (true, { m with used_mb := m.used_mb + mem_mb })
  else
    (false, m)

/-- Embeds `MemoryManager.free(mem_mb)`: `used_mb = max(0, used_mb - mem_mb)`. -/
def MemoryManager.free (m : MemoryManager) (mem_mb : Int) : MemoryManager :=
  { m with used_mb := max 0 (m.used_mb - mem_mb) }

/-- Embeds `MemoryManager.stats()`: the snapshot dictionary
`{total_mb, used_mb, free_mb}` with `free_mb = total_mb - used_mb`. -/
structure Stats where
  total_mb : Int
  used_mb : Int
  free_mb : Int
deriving Repr, DecidableEq

/-- Embeds `MemoryManager.stats()`. -/
def MemoryManager.stats (m : MemoryManager) : Stats :=
  { total_mb := m.total_mb, used_mb := m.used_mb,
    free_mb := m.total_mb - m.used_mb }

/-- One call a client can make against the ledger's usage counter:
`try_alloc(pid, mem_mb)` or `free(mem_mb)`. -/
inductive LedgerOp where
  | alloc (pid : Int) (mem_mb : Int)
  | free (mem_mb : Int)
deriving Repr, DecidableEq

/-- The memory amount carried by a ledger call. -/
def LedgerOp.amount : LedgerOp → Int
  | .alloc _ mem_mb => mem_mb
  | .free mem_mb => mem_mb

/-- Apply one ledger call to the state (the boolean result of `try_alloc`
is dropped; only the state matters for reachability). -/
def applyOp (m : MemoryManager) : LedgerOp → MemoryManager
  | .alloc pid mem_mb => (m.try_alloc pid mem_mb).2
  | .free mem_mb => m.free mem_mb

/-- Run a sequence of ledger calls from a given state. -/
def runOps (m : MemoryManager) (ops : List LedgerOp) : MemoryManager :=
  ops.foldl applyOp m

/-- Workload record, mirroring the `Process` dataclass of `src/simulador.py`
(fields `pid`, `name`, `mem_mb`, `duration_s`, `state`; the comment in the
source lists the possible states as `WAITING | RUNNING | FINISHED`).
`duration_s` is modelled in polling ticks (`dur_ticks`, one tick = one
0.1 s sleep of the run loop); the wall-clock timestamps `t_start` and
`t_end` (floats read from the clock) are outside the embedding. -/
structure Process where
  pid : Int
  name : String
  mem_mb : Int
  dur_ticks : Nat
  state : String := "WAITING"
deriving Repr, DecidableEq

/-- Net effect of one `Scheduler._start_if_possible` pass: the remaining
queue, the ledger usage after the pass's `try_alloc` calls, the processes
started (in attempt order), the processes discarded as never-runnable, and
the `started_any` flag the method returns. -/
structure PassResult where
  queue : List Process
  used_mb : Int
  started : List Process
  discarded : List Process
  started_any : Bool
deriving Repr, DecidableEq

/-- Embeds `Scheduler._start_if_possible`.  The source walks the queue with
an index, removing the current element when it is discarded
(`mem_mb > total`) or when `try_alloc` succeeds, and advancing past it when
`try_alloc` fails; that removal-as-you-walk scan is exactly this structural
recursion.  A started process gets state `RUNNING` as it enters the running
set. -/
def startPass (total : Int) : List Process → Int → PassResult
  | [], used =>
    { queue := [], used_mb := used, started := [], discarded := [], started_any := false }
  | p :: rest, used =>
    if p.mem_mb > total then
      let r := startPass total rest used
      { r with discarded := p :: r.discarded }
    else
      let res := MemoryManager.try_alloc { total_mb := total, used_mb := used } p.pid p.mem_mb
      if res.1 then
        let r := startPass total rest res.2.used_mb
        { r with
            started := { p with state := "RUNNING" } :: r.started,
            started_any := true }
      else
        let r := startPass total rest used
        { r with queue := p :: r.queue }

/-- Sum of declared memory over a list of processes. -/
def memSum (l : List Process) : Int := (l.map (fun p => p.mem_mb)).sum

/-- State of `Scheduler.run` between loop iterations: the waiting queue,
the running set (each entry a `RUNNING` process with its remaining ticks,
modelling its worker thread), the ledger, and the logs of finished and
discarded processes (the source only prints these events; collecting them
keeps them observable). -/
structure SchedState where
  queue : List Process
  running : List (Process × Nat)
  mm : MemoryManager
  finished : List Process
  discarded : List Process
deriving Repr, DecidableEq

/-- Net effect on the scheduler state of the `_start_if_possible()` call
made at the top of each `run` loop iteration: the pass consumes the queue,
each admitted process (state `RUNNING`, remaining ticks = its declared
duration) enters the running set, the reserved memory enters the ledger,
and discarded processes are logged. -/
def doPass (s : SchedState) : SchedState :=
  let r := startPass s.mm.total_mb s.queue s.mm.used_mb
  { queue := r.queue,
    running := s.running ++ r.started.map (fun p => (p, p.dur_ticks)),
    mm := { total_mb := s.mm.total_mb, used_mb := r.used_mb },
    finished := s.finished,
    discarded := s.discarded ++ r.discarded }

/-- Embeds `nothing_left = (not self.running) and (not self.queue)`. -/
def isDone (s : SchedState) : Bool := s.running.isEmpty && s.queue.isEmpty

/-- One `time.sleep(0.1)` interval: every worker thread advances one tick;
a thread whose remaining time is exhausted performs the tail of
`_run_process`: its process becomes `FINISHED`, its memory is returned via
`MemoryManager.free`, and it leaves the running set. -/
def tick (s : SchedState) : SchedState :=
  let fins := s.running.filter (fun e => e.2 == 0)
  let conts := (s.running.filter (fun e => !(e.2 == 0))).map (fun e => (e.1, e.2 - 1))
  { queue := s.queue,
    running := conts,
    mm := fins.foldl (fun m e => m.free e.1.mem_mb) s.mm,
    finished := s.finished ++ fins.map (fun e => { e.1 with state := "FINISHED" }),
    discarded := s.discarded }

/-- Embeds the `while` loop of `Scheduler.run` with explicit fuel: each
unit of fuel is one iteration (admission/discard pass, drained check; if
not drained, the 0.1 s sleep during which worker threads advance one
tick).  `none` means the fuel ran out before the loop exited; the source
itself has no fuel bound, so proving some fuel suffices proves `run()`
returns. -/
def runFuel : Nat → SchedState → Option SchedState
  | 0, _ => none
  | n + 1, s =>
    let s1 := doPass s
    if isDone s1 then some s1 else runFuel n (tick s1)

/-- Whether one iteration of the `run` loop reaches `time.sleep(0.1)`: the
source sleeps exactly when the drained check fails, ignoring the
`started_any` value returned by `_start_if_possible`. -/
def runIterSleeps (s : SchedState) : Bool := !(isDone (doPass s))

/-- State at the top of `run()`: queue as intaken, nothing running,
freshly constructed ledger, empty event logs. -/
def initState (total : Int) (ps : List Process) : SchedState :=
  { queue := ps, running := [], mm := MemoryManager.init total,
    finished := [], discarded := [] }

/-- Demo workload `Editor` (200 MB, 5 s = 50 ticks), pid from intake order. -/
def editorP : Process :=
  { pid := 1, name := "Editor", mem_mb := 200, dur_ticks := 50 }

/-- Demo workload `Compilador` (600 MB, 6 s = 60 ticks). -/
def compilerP : Process :=
  { pid := 2, name := "Compilador", mem_mb := 600, dur_ticks := 60 }

/-- Demo workload `Navegador` (400 MB, 4 s = 40 ticks). -/
def browserP : Process :=
  { pid := 3, name := "Navegador", mem_mb := 400, dur_ticks := 40 }

/-- Demo workload `Terminal` (100 MB, 3 s = 30 ticks). -/
def terminalP : Process :=
  { pid := 4, name := "Terminal", mem_mb := 100, dur_ticks := 30 }

/-- Oversized workload of Scenario B: 800 MB against a 500 MB ledger. -/
def bigP : Process :=
  { pid := 1, name := "Big", mem_mb := 800, dur_ticks := 10 }

/-- Ticks-plus-one measure of the running set. -/
def sumR (l : List (Process × Nat)) : Nat := (l.map (fun e => e.2 + 1)).sum

/-- Ticks-plus-two measure of the queue. -/
def sumQ (l : List Process) : Nat := (l.map (fun p => p.dur_ticks + 2)).sum

/-- Loop measure of a scheduler state: it never grows across a pass and
strictly shrinks across an undrained sleep, which bounds the number of
loop iterations of `run`. -/
def loopMeasure (s : SchedState) : Nat := sumQ s.queue + sumR s.running

/-- Declared memory held by the running set. -/
def rMemSum (l : List (Process × Nat)) : Int := (l.map (fun e => e.1.mem_mb)).sum

/-- Run-loop invariant: the ledger usage is exactly the memory of the
running set, every queued process has a non-negative requirement that fits
total capacity, and every running process has a non-negative requirement. -/
def SchedInv (s : SchedState) : Prop :=
  s.mm.used_mb = rMemSum s.running ∧
  (∀ p ∈ s.queue, 0 ≤ p.mem_mb ∧ p.mem_mb ≤ s.mm.total_mb) ∧
  (∀ e ∈ s.running, 0 ≤ e.1.mem_mb)

/-- Embeds `Scheduler._gen_pid`: returns the current counter value and the
incremented counter. -/
def genPid (next_pid : Int) : Int × Int := (next_pid, next_pid + 1)

/-- One intake request: the arguments of `Scheduler.add_process`. -/
structure AddReq where
  name : Option String
  mem_mb : Int
  dur_ticks : Nat
  pid : Option Int
deriving Repr, DecidableEq

/-- Python `if not name:` treats both `None` and `""` as absent; the
uuid-based placeholder `proc-<hex6>` is modelled as a fixed string since
only its presence matters here. -/
def defaultName : Option String → String
  | none => "proc-auto"
  | some n => if n = "" then "proc-auto" else n

/-- The intake-relevant part of `Scheduler` state: the `next_pid` counter
(initially 1) and the queue that `add_process` appends to. -/
structure IntakeState where
  next_pid : Int
  queue : List Process
deriving Repr, DecidableEq

/-- Embeds `Scheduler.add_process`: when no pid is supplied, `_gen_pid()`
assigns the counter value and bumps the counter; when a pid IS supplied it
is used as given and the counter is not consulted or changed.  The new
`WAITING` process is appended to the tail of the queue. -/
def add_process (s : IntakeState) (req : AddReq) : Process × IntakeState :=
  match req.pid with
  | some pid =>
    let p : Process := { pid := pid, name := defaultName req.name,
                         mem_mb := req.mem_mb, dur_ticks := req.dur_ticks }
    (p, { s with queue := s.queue ++ [p] })
  | none =>
    let g := genPid s.next_pid
    let p : Process := { pid := g.1, name := defaultName req.name,
                         mem_mb := req.mem_mb, dur_ticks := req.dur_ticks }
    (p, { next_pid := g.2, queue := s.queue ++ [p] })

/-- A sequence of `add_process` calls. -/
def runIntakes (s : IntakeState) (reqs : List AddReq) : IntakeState :=
  reqs.foldl (fun st r => (add_process st r).2) s

/-- Python `str.split(sep)` for a one-character separator (as in
`arg.split(",")`): splits at every separator occurrence, keeping empty
pieces; splitting the empty string yields one empty piece. -/
def pySplit (sep : Char) : List Char → List (List Char)
  | [] => [[]]
  | c :: rest =>
    let r := pySplit sep rest
    if c = sep then [] :: r
    else
      match r with
      | [] => [[c]]
      | g :: gs => (c :: g) :: gs

/-- Python `str.strip()`: removes leading and trailing whitespace. -/
def pyStrip (cs : List Char) : List Char :=
  ((cs.dropWhile Char.isWhitespace).reverse.dropWhile Char.isWhitespace).reverse

/-- Python `part.partition("=")` as used in `parse_add_arg`: the text
before the first `'='` and the text after it; when there is no `'='` the
whole string is the first component and the second is empty, matching
Python's `(s, "", "")`. -/
def pyPartitionEq : List Char → (List Char × List Char)
  | [] => ([], [])
  | c :: rest =>
    if c = '=' then ([], rest)
    else
      let r := pyPartitionEq rest
      (c :: r.1, r.2)

/-- Base-10 value of a run of ASCII digits. -/
def digitsVal (cs : List Char) : Nat :=
  cs.foldl (fun n c => n * 10 + (c.toNat - 48)) 0

/-- Modelled Python `int(str)`: optional surrounding whitespace, optional
single sign, then one or more ASCII digits (digit-grouping underscores and
non-ASCII digits are not modelled).  `none` models the `ValueError` the
builtin raises on any other input. -/
def parsePyInt (cs : List Char) : Option Int :=
  match pyStrip cs with
  | '-' :: ds =>
    if ds.isEmpty then none
    else if ds.all Char.isDigit then some (-(digitsVal ds : Int)) else none
  | '+' :: ds =>
    if ds.isEmpty then none
    else if ds.all Char.isDigit then some (digitsVal ds) else none
  | ds =>
    if ds.isEmpty then none
    else if ds.all Char.isDigit then some (digitsVal ds) else none

/-- Unsigned body of a modelled Python `float(str)`: digits with an
optional single decimal point, at least one digit overall.  The value is
the exact rational the decimal denotes. -/
def parseFloatBody (body : List Char) : Option ℚ :=
  match pySplit '.' body with
  | [a] =>
    if a.isEmpty then none
    else if a.all Char.isDigit then some (digitsVal a) else none
  | [a, b] =>
    if a.isEmpty && b.isEmpty then none
    else if a.all Char.isDigit && b.all Char.isDigit then
      some ((digitsVal a : ℚ) + (digitsVal b : ℚ) / ((10 : ℚ) ^ b.length))
    else none
  | _ => none

/-- Modelled Python `float(str)` restricted to the decimal forms the
simulator's inputs use: optional surrounding whitespace, optional single
sign, digits with an optional decimal point (exponents, `inf` and `nan`
are not modelled).  Values are exact rationals, since only
success-vs-`ValueError` and the exact-zero default matter here; `none`
models the `ValueError`. -/
def parsePyFloat (cs : List Char) : Option ℚ :=
  match pyStrip cs with
  | '-' :: body => (parseFloatBody body).map (fun q => -q)
  | '+' :: body => parseFloatBody body
  | body => parseFloatBody body

/-- The key-value pairs accumulated by `parse_add_arg`'s
`for part in arg.split(","):` loop: blank parts are skipped, each part is
partitioned at its first `'='`, and key and value are stripped.  (The
Python dict deduplicates keys keeping the last assignment; the lookups
below read the last binding, which agrees.) -/
def kvPairs (arg : List Char) : List (List Char × List Char) :=
  (pySplit ',' arg).foldl
    (fun acc part =>
      if (pyStrip part).isEmpty then acc
      else
        let pr := pyPartitionEq part
        acc ++ [(pyStrip pr.1, pyStrip pr.2)])
    []

/-- Lookup `kv.get(k)` / `"k" in kv` on the accumulated pairs: the last binding
of the key, as in a Python dict built by repeated assignment. -/
def kvGet (kv : List (List Char × List Char)) (k : List Char) : Option (List Char) :=
  (kv.reverse.find? (fun e => e.1 == k)).map (fun e => e.2)

/-- The `out` dict returned by `parse_add_arg`: optional pid, optional
name, and the parsed `mem` and `dur` numbers. -/
structure AddSpec where
  pid : Option Int
  name : Option String
  mem : Int
  dur : ℚ
deriving Repr, DecidableEq

/-- Embeds `out["pid"] = int(kv["pid"])`, executed only when `"pid" in kv`; a
non-numeric value raises `ValueError`. -/
def pidField (kv : List (List Char × List Char)) : Except String (Option Int) :=
  match kvGet kv "pid".data with
  | none => .ok none
  | some v =>
    match parsePyInt v with
    | some n => .ok (some n)
    | none => .error "ValueError: invalid literal for int()"

/-- Embeds `out["mem"] = int(kv.get("mem", "0"))`: a MISSING mem key defaults to
the string "0"; only a present non-numeric value raises. -/
def memField (kv : List (List Char × List Char)) : Except String Int :=
  match parsePyInt ((kvGet kv "mem".data).getD "0".data) with
  | some n => .ok n
  | none => .error "ValueError: invalid literal for int()"

/-- Embeds `out["dur"] = float(kv.get("dur", "0"))`: a MISSING dur key defaults
to the string "0"; only a present non-numeric value raises. -/
def durField (kv : List (List Char × List Char)) : Except String Rat :=
  match parsePyFloat ((kvGet kv "dur".data).getD "0".data) with
  | some q => .ok q
  | none => .error "ValueError: could not convert string to float"

/-- Embeds `parse_add_arg`: split on commas into stripped key-value pairs,
then evaluate `pid`, `name`, `mem`, `dur` in the source's order.  An
`Except.error` models the uncaught `ValueError` that aborts `main` before
the offending definition reaches `add_process`. -/
def parse_add_arg (arg : String) : Except String AddSpec :=
  let kv := kvPairs arg.data
  match pidField kv with
  | .error e => .error e
  | .ok pid =>
    match memField kv with
    | .error e => .error e
    | .ok mem =>
      match durField kv with
      | .error e => .error e
      | .ok dur =>
        .ok { pid := pid, name := (kvGet kv "name".data).map (fun cs => String.mk cs),
              mem := mem, dur := dur }

/-- A field lookup is "absent or parseable": the condition under which the
corresponding conversion cannot raise. -/
def presentOk {α : Type} (p : List Char → Option α) (o : Option (List Char)) : Bool :=
  match o with
  | none => true
  | some v => (p v).isSome

/-- Both ledger methods leave `total_mb` unchanged. -/
lemma applyOp_total (m : MemoryManager) (op : LedgerOp) :
    (applyOp m op).total_mb = m.total_mb := by
  cases op with
  | alloc pid mem_mb =>
    simp only [applyOp, MemoryManager.try_alloc]
    split <;> rfl
  | free mem_mb => rfl

/-- One ledger call with a non-negative amount preserves `0 ≤ used ≤ total`. -/
lemma applyOp_inv (m : MemoryManager) (op : LedgerOp)
    (hmem : 0 ≤ op.amount) (h0 : 0 ≤ m.used_mb) (h1 : m.used_mb ≤ m.total_mb) :
    0 ≤ (applyOp m op).used_mb ∧ (applyOp m op).used_mb ≤ (applyOp m op).total_mb := by
  cases op with
  | alloc pid mem_mb =>
    simp only [applyOp, MemoryManager.try_alloc, LedgerOp.amount] at *
    by_cases h : m.used_mb + mem_mb ≤ m.total_mb
    · simp only [if_pos h]
      exact ⟨by linarith, by simpa using h⟩
    · simp only [if_neg h]
      exact ⟨h0, h1⟩
  | free mem_mb =>
    simp only [applyOp, MemoryManager.free, LedgerOp.amount] at *
    constructor
    · exact le_max_left 0 _
    · have : max 0 (m.used_mb - mem_mb) ≤ m.used_mb := by
        apply max_le <;> linarith
      linarith

/-- Any sequence of non-negative ledger calls preserves `0 ≤ used ≤ total`. -/
lemma runOps_inv (ops : List LedgerOp) (m : MemoryManager)
    (hops : ∀ op ∈ ops, 0 ≤ op.amount)
    (h0 : 0 ≤ m.used_mb) (h1 : m.used_mb ≤ m.total_mb) :
    0 ≤ (runOps m ops).used_mb ∧ (runOps m ops).used_mb ≤ (runOps m ops).total_mb := by
  induction ops generalizing m with
  | nil => exact ⟨h0, h1⟩
  | cons op rest ih =>
    have hop : 0 ≤ op.amount := hops op (List.mem_cons_self op rest)
    have hstep := applyOp_inv m op hop h0 h1
    have htot := applyOp_total m op
    exact ih (applyOp m op) (fun o ho => hops o (List.mem_cons_of_mem op ho))
      hstep.1 (htot ▸ hstep.2)

/-- C1: starting from a freshly constructed ledger with non-negative total,
after any sequence of `try_alloc` and `free` calls whose amounts are all
non-negative, the invariant `0 ≤ used_mb ≤ total_mb` holds. -/
theorem ledger_invariant (total : Int) (ops : List LedgerOp)
    (htotal : 0 ≤ total)
    (hops : ∀ op ∈ ops, 0 ≤ op.amount) :
    0 ≤ (runOps (MemoryManager.init total) ops).used_mb ∧
      (runOps (MemoryManager.init total) ops).used_mb ≤
        (runOps (MemoryManager.init total) ops).total_mb :=
  runOps_inv ops (MemoryManager.init total) hops le_rfl htotal

/-- Witness for C1 at total = 1024 and a concrete call sequence. -/
theorem ledger_invariant_witness :
    0 ≤ (runOps (MemoryManager.init 1024)
          [LedgerOp.alloc 1 200, LedgerOp.alloc 2 600, LedgerOp.free 200]).used_mb ∧
      (runOps (MemoryManager.init 1024)
          [LedgerOp.alloc 1 200, LedgerOp.alloc 2 600, LedgerOp.free 200]).used_mb ≤
        (runOps (MemoryManager.init 1024)
          [LedgerOp.alloc 1 200, LedgerOp.alloc 2 600, LedgerOp.free 200]).total_mb :=
  ledger_invariant 1024 [LedgerOp.alloc 1 200, LedgerOp.alloc 2 600, LedgerOp.free 200]
    (by decide) (by decide)

/-- C2: `try_alloc` returns `True` and increments `used_mb` by exactly the
requested amount when `used + amount ≤ total`, and otherwise returns `False`
and leaves the state (both `used_mb` and `total_mb`) unchanged.  It is a
total function: insufficient memory yields the boolean `false`, never an
exception. -/
theorem try_alloc_spec (m : MemoryManager) (pid mem_mb : Int) :
    (m.used_mb + mem_mb ≤ m.total_mb →
      m.try_alloc pid mem_mb =
        (true, { total_mb := m.total_mb, used_mb := m.used_mb + mem_mb })) ∧
    (¬ m.used_mb + mem_mb ≤ m.total_mb →
      m.try_alloc pid mem_mb = (false, m)) := by
  constructor
  · intro h
    simp [MemoryManager.try_alloc, h]
  · intro h
    simp [MemoryManager.try_alloc, h]

/-- Witness for C2: a fitting request (200 into an empty 1024 ledger)
succeeds and adds exactly 200; an oversized request (900 on top of 200)
fails and leaves the state unchanged. -/
theorem try_alloc_spec_witness :
    (MemoryManager.init 1024).try_alloc 1 200 =
      (true, { total_mb := 1024, used_mb := 200 }) ∧
    MemoryManager.try_alloc { total_mb := 1024, used_mb := 200 } 2 900 =
      (false, { total_mb := 1024, used_mb := 200 }) :=
  ⟨(try_alloc_spec (MemoryManager.init 1024) 1 200).1 (by decide),
   (try_alloc_spec { total_mb := 1024, used_mb := 200 } 2 900).2 (by decide)⟩

/-- C7: for every ledger state and non-negative amount, `free` sets
`used_mb` to `max(0, used_mb - amount)`; the result is never negative, and
a caller releasing no more than is currently used gets the exact
decrement (the floor is not triggered). -/
theorem free_spec (m : MemoryManager) (mem_mb : Int) (hmem : 0 ≤ mem_mb) :
    (m.free mem_mb).used_mb = max 0 (m.used_mb - mem_mb) ∧
    0 ≤ (m.free mem_mb).used_mb ∧
    (mem_mb ≤ m.used_mb → (m.free mem_mb).used_mb = m.used_mb - mem_mb) := by
  refine ⟨rfl, le_max_left 0 _, fun h => ?_⟩
  simp only [MemoryManager.free]
  exact max_eq_right (by linarith)

/-- Witness for C7 at used = 300, total = 1024, amount = 200. -/
theorem free_spec_witness :
    (MemoryManager.free { total_mb := 1024, used_mb := 300 } 200).used_mb =
        max 0 (300 - 200) ∧
    0 ≤ (MemoryManager.free { total_mb := 1024, used_mb := 300 } 200).used_mb ∧
    (MemoryManager.free { total_mb := 1024, used_mb := 300 } 200).used_mb = 300 - 200 := by
  have h := free_spec { total_mb := 1024, used_mb := 300 } 200 (by decide)
  exact ⟨h.1, h.2.1, h.2.2 (by decide)⟩

/-- C10: `try_alloc` performs no non-negativity check on the requested
amount: with used = 0, total = 1024 and amount = -100 it returns `True` and
leaves `used_mb = -100 < 0`, so the `0 ≤ used` invariant is not preserved
over arbitrary integer amounts. -/
theorem try_alloc_negative_breaks_invariant :
    (MemoryManager.init 1024).try_alloc 1 (-100) =
      (true, { total_mb := 1024, used_mb := -100 }) ∧
    ((MemoryManager.init 1024).try_alloc 1 (-100)).2.used_mb < 0 := by
  decide

/-- Unfolding equation: discard branch of the pass. -/
lemma startPass_cons_discard (total used : Int) (p : Process) (rest : List Process)
    (h : p.mem_mb > total) :
    startPass total (p :: rest) used =
      { startPass total rest used with
          discarded := p :: (startPass total rest used).discarded } := by
  simp [startPass, h]

/-- Unfolding equation: successful-allocation branch of the pass. -/
lemma startPass_cons_start (total used : Int) (p : Process) (rest : List Process)
    (h1 : ¬ p.mem_mb > total) (h2 : used + p.mem_mb ≤ total) :
    startPass total (p :: rest) used =
      { startPass total rest (used + p.mem_mb) with
          started := { p with state := "RUNNING" } ::
            (startPass total rest (used + p.mem_mb)).started,
          started_any := true } := by
  simp [startPass, MemoryManager.try_alloc, h1, h2]

/-- Unfolding equation: failed-allocation branch of the pass. -/
lemma startPass_cons_fail (total used : Int) (p : Process) (rest : List Process)
    (h1 : ¬ p.mem_mb > total) (h2 : ¬ used + p.mem_mb ≤ total) :
    startPass total (p :: rest) used =
      { startPass total rest used with
          queue := p :: (startPass total rest used).queue } := by
  simp [startPass, MemoryManager.try_alloc, h1, h2]

/-- The queue left by a pass is a sublist of the input queue: entries that
stay, stay unchanged and in FIFO order. -/
lemma startPass_queue_sublist (total : Int) (q : List Process) (used : Int) :
    List.Sublist (startPass total q used).queue q := by
  induction q generalizing used with
  | nil => simp [startPass]
  | cons p rest ih =>
    by_cases h1 : p.mem_mb > total
    · rw [startPass_cons_discard total used p rest h1]
      exact List.Sublist.cons p (ih used)
    · by_cases h2 : used + p.mem_mb ≤ total
      · rw [startPass_cons_start total used p rest h1 h2]
        exact List.Sublist.cons p (ih (used + p.mem_mb))
      · rw [startPass_cons_fail total used p rest h1 h2]
        exact List.Sublist.cons₂ p (ih used)

/-- Every process started by a pass fits in total capacity. -/
lemma startPass_started_le (total : Int) (q : List Process) (used : Int) :
    ∀ r ∈ (startPass total q used).started, r.mem_mb ≤ total := by
  induction q generalizing used with
  | nil => simp [startPass]
  | cons p rest ih =>
    by_cases h1 : p.mem_mb > total
    · rw [startPass_cons_discard total used p rest h1]
      exact ih used
    · by_cases h2 : used + p.mem_mb ≤ total
      · rw [startPass_cons_start total used p rest h1 h2]
        intro r hr
        rcases List.mem_cons.mp hr with h | h
        · subst h; exact not_lt.mp h1
        · exact ih (used + p.mem_mb) r h
      · rw [startPass_cons_fail total used p rest h1 h2]
        exact ih used

/-- Every process left in the queue by a pass fits in total capacity
(oversized ones were removed by the discard branch). -/
lemma startPass_queue_le (total : Int) (q : List Process) (used : Int) :
    ∀ r ∈ (startPass total q used).queue, r.mem_mb ≤ total := by
  induction q generalizing used with
  | nil => simp [startPass]
  | cons p rest ih =>
    by_cases h1 : p.mem_mb > total
    · rw [startPass_cons_discard total used p rest h1]
      exact ih used
    · by_cases h2 : used + p.mem_mb ≤ total
      · rw [startPass_cons_start total used p rest h1 h2]
        exact ih (used + p.mem_mb)
      · rw [startPass_cons_fail total used p rest h1 h2]
        intro r hr
        rcases List.mem_cons.mp hr with h | h
        · subst h; exact not_lt.mp h1
        · exact ih used r h

/-- Discarded processes are original queue entries, unchanged. -/
lemma startPass_discarded_sub (total : Int) (q : List Process) (used : Int) :
    ∀ r ∈ (startPass total q used).discarded, r ∈ q := by
  induction q generalizing used with
  | nil => simp [startPass]
  | cons p rest ih =>
    by_cases h1 : p.mem_mb > total
    · rw [startPass_cons_discard total used p rest h1]
      intro r hr
      rcases List.mem_cons.mp hr with h | h
      · exact List.mem_cons.mpr (Or.inl h)
      · exact List.mem_cons_of_mem p (ih used r h)
    · by_cases h2 : used + p.mem_mb ≤ total
      · rw [startPass_cons_start total used p rest h1 h2]
        exact fun r hr => List.mem_cons_of_mem p (ih (used + p.mem_mb) r hr)
      · rw [startPass_cons_fail total used p rest h1 h2]
        exact fun r hr => List.mem_cons_of_mem p (ih used r hr)

/-- A queued process whose requirement strictly exceeds total capacity ends
up in the pass's discarded output. -/
lemma startPass_mem_discarded (total : Int) (q : List Process) (used : Int)
    (p : Process) (hq : p ∈ q) (hover : p.mem_mb > total) :
    p ∈ (startPass total q used).discarded := by
  induction q generalizing used with
  | nil => cases hq
  | cons a rest ih =>
    rcases List.mem_cons.mp hq with h | h
    · rw [startPass_cons_discard total used a rest (h ▸ hover)]
      exact List.mem_cons.mpr (Or.inl h)
    · by_cases h1 : a.mem_mb > total
      · rw [startPass_cons_discard total used a rest h1]
        exact List.mem_cons_of_mem a (ih used h)
      · by_cases h2 : used + a.mem_mb ≤ total
        · rw [startPass_cons_start total used a rest h1 h2]
          exact ih (used + a.mem_mb) h
        · rw [startPass_cons_fail total used a rest h1 h2]
          exact ih used h

/-- Ledger accounting of a pass: the usage afterwards is the usage before
plus exactly the memory of the started processes (discarded and still-queued
processes reserve nothing). -/
lemma startPass_used (total : Int) (q : List Process) (used : Int) :
    (startPass total q used).used_mb = used + memSum (startPass total q used).started := by
  induction q generalizing used with
  | nil => simp [startPass, memSum]
  | cons p rest ih =>
    by_cases h1 : p.mem_mb > total
    · rw [startPass_cons_discard total used p rest h1]
      exact ih used
    · by_cases h2 : used + p.mem_mb ≤ total
      · rw [startPass_cons_start total used p rest h1 h2]
        have := ih (used + p.mem_mb)
        simp only [memSum, List.map_cons, List.sum_cons] at *
        linarith
      · rw [startPass_cons_fail total used p rest h1 h2]
        exact ih used

/-- Progress: on a non-empty queue whose head needs at most `total`, a pass
starting from usage 0 starts at least one process. -/
lemma startPass_progress (total : Int) (p : Process) (rest : List Process)
    (hmem0 : 0 ≤ p.mem_mb) (hle : p.mem_mb ≤ total) :
    (startPass total (p :: rest) 0).started ≠ [] := by
  have h1 : ¬ p.mem_mb > total := not_lt.mpr hle
  have h2 : (0 : Int) + p.mem_mb ≤ total := by linarith
  rw [startPass_cons_start total 0 p rest h1 h2]
  simp

/-- C4: within one admission pass the queue is attempted in FIFO order; a
workload whose reservation fails stays in the queue (unchanged, in order)
while the pass continues, so the remaining queue is a sublist of the input;
and on the concrete queue [Editor:200, Compiler:600, Browser:400,
Terminal:100] with total 1024 and nothing running, one pass starts Editor,
Compiler and Terminal (in that order, ending at 900 MB used) and leaves
Browser as the only queued workload. -/
theorem admission_pass_fifo :
    (∀ (total : Int) (q : List Process) (used : Int),
        List.Sublist (startPass total q used).queue q) ∧
    startPass 1024 [editorP, compilerP, browserP, terminalP] 0 =
      { queue := [browserP], used_mb := 900,
        started := [{ editorP with state := "RUNNING" },
                    { compilerP with state := "RUNNING" },
                    { terminalP with state := "RUNNING" }],
        discarded := [], started_any := true } :=
  ⟨startPass_queue_sublist, by decide⟩

/-- C3 (amended): a queued workload whose requirement strictly exceeds the
fixed total capacity, wherever it sits in the queue, is never admitted by a
pass (it is not among the started processes and no memory is reserved for
it: the ledger accounting covers exactly the started processes), is removed
from the queue by the discard branch, and lands in the discarded output as
the unchanged original record — in particular its state field keeps its
intake value; the code has no `DISCARDED` state. -/
theorem oversize_never_admitted (total used : Int) (q : List Process)
    (p : Process) (hq : p ∈ q) (hover : p.mem_mb > total) :
    p ∈ (startPass total q used).discarded ∧
    p ∉ (startPass total q used).started ∧
    p ∉ (startPass total q used).queue ∧
    (∀ r ∈ (startPass total q used).discarded, r ∈ q) ∧
    (startPass total q used).used_mb = used + memSum (startPass total q used).started := by
  refine ⟨startPass_mem_discarded total q used p hq hover, ?_, ?_,
    startPass_discarded_sub total q used, startPass_used total q used⟩
  · intro hmem
    exact absurd (startPass_started_le total q used p hmem) (not_le.mpr hover)
  · intro hmem
    exact absurd (startPass_queue_le total q used p hmem) (not_le.mpr hover)

/-- Witness for the amended C3 at Scenario B: total 500, queue [Big:800]. -/
theorem oversize_never_admitted_witness :
    bigP ∈ (startPass 500 [bigP] 0).discarded ∧
    bigP ∉ (startPass 500 [bigP] 0).started ∧
    bigP ∉ (startPass 500 [bigP] 0).queue ∧
    (∀ r ∈ (startPass 500 [bigP] 0).discarded, r ∈ [bigP]) ∧
    (startPass 500 [bigP] 0).used_mb = 0 + memSum (startPass 500 [bigP] 0).started :=
  oversize_never_admitted 500 0 [bigP] bigP (by decide) (by decide)

/-- C3 (counterexample): running Scenario B (total 500, one 800 MB
workload) to completion discards the workload and drains the scheduler,
but the workload's state field still reads "WAITING": the code never sets
any `DISCARDED` state, so the claimed terminal `DISCARDED` transition does
not happen. -/
theorem discard_leaves_state_waiting :
    (runFuel 1 (initState 500 [bigP])).map SchedState.discarded = some [bigP] ∧
    (runFuel 1 (initState 500 [bigP])).map SchedState.queue = some [] ∧
    (runFuel 1 (initState 500 [bigP])).map SchedState.running = some [] ∧
    bigP.state = "WAITING" ∧
    ¬ bigP.state = "DISCARDED" := by
  decide

/-- C8 (amended): an iteration of the `run` loop reaches `time.sleep(0.1)`
exactly when the drained check fails after the pass — that is, when the
running set or the queue is still non-empty — regardless of whether the
discard or admission pass made progress (`run` ignores the `started_any`
result of `_start_if_possible`). -/
theorem run_sleep_iff_not_drained (s : SchedState) :
    runIterSleeps s = true ↔
      ¬ ((doPass s).running = [] ∧ (doPass s).queue = []) := by
  by_cases hr : (doPass s).running = [] <;> by_cases hq : (doPass s).queue = [] <;>
    simp [runIterSleeps, isDone, hr, hq]

/-- C8 (counterexample): from an empty 1024 MB ledger with Editor queued,
the admission pass makes progress (`started_any = true`), yet the
iteration still sleeps — the loop does not retry immediately after
progress. -/
theorem sleep_despite_progress :
    (startPass 1024 [editorP] 0).started_any = true ∧
    runIterSleeps (initState 1024 [editorP]) = true := by
  decide

/-- A pass cannot increase the combined measure of queue and new running
entries. -/
lemma startPass_measure (total : Int) (q : List Process) (used : Int) :
    sumQ (startPass total q used).queue +
      sumR ((startPass total q used).started.map (fun p => (p, p.dur_ticks))) ≤
    sumQ q := by
  induction q generalizing used with
  | nil => simp [startPass, sumQ, sumR]
  | cons p rest ih =>
    by_cases h1 : p.mem_mb > total
    · rw [startPass_cons_discard total used p rest h1]
      have h := ih used
      simp only [sumQ, sumR, List.map_cons, List.sum_cons] at h ⊢
      omega
    · by_cases h2 : used + p.mem_mb ≤ total
      · rw [startPass_cons_start total used p rest h1 h2]
        have h := ih (used + p.mem_mb)
        simp only [sumQ, sumR, List.map_cons, List.sum_cons] at h ⊢
        omega
      · rw [startPass_cons_fail total used p rest h1 h2]
        have h := ih used
        simp only [sumQ, sumR, List.map_cons, List.sum_cons] at h ⊢
        omega

/-- Measure accounting of one sleep interval over the running set: the
surviving entries weigh exactly the old weight minus one per old entry. -/
lemma tick_running_measure (l : List (Process × Nat)) :
    sumR ((l.filter (fun e => !(e.2 == 0))).map (fun e => (e.1, e.2 - 1))) + l.length =
    sumR l := by
  induction l with
  | nil => simp [sumR]
  | cons e rest ih =>
    by_cases h : e.2 = 0
    · have hcond : (!(e.2 == 0)) = false := by simp [h]
      rw [List.filter_cons, hcond]
      simp only [Bool.false_eq_true, if_false, List.length_cons, sumR,
        List.map_cons, List.sum_cons] at ih ⊢
      omega
    · have hcond : (!(e.2 == 0)) = true := by simp [h]
      rw [List.filter_cons, hcond]
      simp only [if_true, List.length_cons, sumR, List.map_cons, List.sum_cons] at ih ⊢
      omega

/-- The pass never increases the loop measure. -/
lemma doPass_measure (s : SchedState) : loopMeasure (doPass s) ≤ loopMeasure s := by
  have h := startPass_measure s.mm.total_mb s.queue s.mm.used_mb
  simp only [loopMeasure, doPass, sumR, List.map_append, List.sum_append]
  simp only [sumR] at h
  omega

/-- A sleep interval with a non-empty running set strictly decreases the
loop measure. -/
lemma tick_measure (s : SchedState) (h : s.running ≠ []) :
    loopMeasure (tick s) < loopMeasure s := by
  have hlen : 0 < s.running.length := List.length_pos.mpr h
  have := tick_running_measure s.running
  simp only [loopMeasure, tick]
  omega

/-- Started processes inherit non-negative requirements from the queue. -/
lemma startPass_started_nonneg (total : Int) (q : List Process) (used : Int)
    (hq : ∀ p ∈ q, 0 ≤ p.mem_mb) :
    ∀ r ∈ (startPass total q used).started, 0 ≤ r.mem_mb := by
  induction q generalizing used with
  | nil => simp [startPass]
  | cons p rest ih =>
    have hp := hq p (List.mem_cons_self p rest)
    have hrest : ∀ a ∈ rest, 0 ≤ a.mem_mb :=
      fun a ha => hq a (List.mem_cons_of_mem p ha)
    by_cases h1 : p.mem_mb > total
    · rw [startPass_cons_discard total used p rest h1]
      exact ih used hrest
    · by_cases h2 : used + p.mem_mb ≤ total
      · rw [startPass_cons_start total used p rest h1 h2]
        intro r hr
        rcases List.mem_cons.mp hr with h | h
        · subst h; exact hp
        · exact ih (used + p.mem_mb) hrest r h
      · rw [startPass_cons_fail total used p rest h1 h2]
        exact ih used hrest

/-- Folding `MemoryManager.free` leaves `total_mb` unchanged. -/
lemma freeFold_total (l : List (Process × Nat)) (m : MemoryManager) :
    (l.foldl (fun mm e => mm.free e.1.mem_mb) m).total_mb = m.total_mb := by
  induction l generalizing m with
  | nil => rfl
  | cons e rest ih => exact ih (m.free e.1.mem_mb)

/-- Running-set memory is non-negative when each entry is. -/
lemma rMemSum_nonneg (l : List (Process × Nat)) (h : ∀ e ∈ l, 0 ≤ e.1.mem_mb) :
    0 ≤ rMemSum l := by
  induction l with
  | nil => simp [rMemSum]
  | cons e rest ih =>
    have he := h e (List.mem_cons_self e rest)
    have hr := ih (fun a ha => h a (List.mem_cons_of_mem e ha))
    simp only [rMemSum, List.map_cons, List.sum_cons] at *
    linarith

/-- Correct release accounting: freeing the memory of a list of finishing
entries, when the ledger holds at least that much, subtracts exactly their
memory (the `max 0` clamp never fires). -/
lemma freeFold_used (l : List (Process × Nat)) (m : MemoryManager)
    (hnn : ∀ e ∈ l, 0 ≤ e.1.mem_mb) (hge : rMemSum l ≤ m.used_mb) :
    (l.foldl (fun mm e => mm.free e.1.mem_mb) m).used_mb = m.used_mb - rMemSum l := by
  induction l generalizing m with
  | nil => simp [rMemSum]
  | cons e rest ih =>
    have he := hnn e (List.mem_cons_self e rest)
    have hrestnn : ∀ a ∈ rest, 0 ≤ a.1.mem_mb :=
      fun a ha => hnn a (List.mem_cons_of_mem e ha)
    have hrest0 : 0 ≤ rMemSum rest := rMemSum_nonneg rest hrestnn
    have hcons : rMemSum (e :: rest) = e.1.mem_mb + rMemSum rest := by
      simp [rMemSum]
    rw [hcons] at hge
    have hfree : (m.free e.1.mem_mb).used_mb = m.used_mb - e.1.mem_mb := by
      simp only [MemoryManager.free]
      exact max_eq_right (by linarith)
    have hge2 : rMemSum rest ≤ (m.free e.1.mem_mb).used_mb := by
      rw [hfree]; linarith
    have hrec := ih (m.free e.1.mem_mb) hrestnn hge2
    simp only [List.foldl_cons]
    rw [hrec, hfree, hcons]
    ring

/-- The two filtered halves of the running set carry all its memory. -/
lemma rMemSum_filter_split (l : List (Process × Nat)) :
    rMemSum (l.filter (fun e => e.2 == 0)) +
      rMemSum (l.filter (fun e => !(e.2 == 0))) = rMemSum l := by
  induction l with
  | nil => simp [rMemSum]
  | cons e rest ih =>
    by_cases h : e.2 = 0
    · simp only [rMemSum, List.filter_cons, h, beq_self_eq_true, Bool.not_true,
        Bool.false_eq_true, if_true, if_false, List.map_cons, List.sum_cons] at *
      linarith
    · have hb : (e.2 == 0) = false := beq_eq_false_iff_ne.mpr h
      simp only [rMemSum, List.filter_cons, hb, Bool.not_false, Bool.false_eq_true,
        if_true, if_false, List.map_cons, List.sum_cons] at *
      linarith

/-- Decrementing remaining ticks does not change the memory of the set. -/
lemma rMemSum_map_dec (l : List (Process × Nat)) :
    rMemSum (l.map (fun e => (e.1, e.2 - 1))) = rMemSum l := by
  induction l with
  | nil => rfl
  | cons e rest ih =>
    simp only [rMemSum, List.map_cons, List.sum_cons] at ih ⊢
    omega

/-- Memory of the set is additive over append. -/
lemma rMemSum_append (a b : List (Process × Nat)) :
    rMemSum (a ++ b) = rMemSum a + rMemSum b := by
  simp [rMemSum]

/-- Pairing started processes with their durations keeps their memory. -/
lemma rMemSum_map_pair (l : List Process) :
    rMemSum (l.map (fun p => (p, p.dur_ticks))) = memSum l := by
  induction l with
  | nil => rfl
  | cons p rest ih =>
    simp only [rMemSum, memSum, List.map_cons, List.sum_cons] at ih ⊢
    omega

/-- The pass preserves the run-loop invariant. -/
lemma doPass_inv (s : SchedState) (hinv : SchedInv s) : SchedInv (doPass s) := by
  obtain ⟨hused, hqueue, hrun⟩ := hinv
  refine ⟨?_, ?_, ?_⟩
  · show (startPass s.mm.total_mb s.queue s.mm.used_mb).used_mb =
      rMemSum (s.running ++
        (startPass s.mm.total_mb s.queue s.mm.used_mb).started.map
          (fun p => (p, p.dur_ticks)))
    rw [rMemSum_append, rMemSum_map_pair,
      startPass_used s.mm.total_mb s.queue s.mm.used_mb, hused]
  · intro p hp
    have hmem : p ∈ s.queue :=
      (startPass_queue_sublist s.mm.total_mb s.queue s.mm.used_mb).subset hp
    simpa only [doPass] using hqueue p hmem
  · intro e he
    simp only [doPass, List.mem_append] at he
    rcases he with h | h
    · exact hrun e h
    · rcases List.mem_map.mp h with ⟨r, hr, hre⟩
      have := startPass_started_nonneg s.mm.total_mb s.queue s.mm.used_mb
        (fun p hp => (hqueue p hp).1) r hr
      rw [← hre]
      exact this

/-- A sleep interval preserves the run-loop invariant. -/
lemma tick_inv (s : SchedState) (hinv : SchedInv s) : SchedInv (tick s) := by
  obtain ⟨hused, hqueue, hrun⟩ := hinv
  have hfinsnn : ∀ e ∈ s.running.filter (fun e => e.2 == 0), 0 ≤ e.1.mem_mb :=
    fun e he => hrun e (List.mem_of_mem_filter he)
  have hcontnn : ∀ e ∈ s.running.filter (fun e => !(e.2 == 0)), 0 ≤ e.1.mem_mb :=
    fun e he => hrun e (List.mem_of_mem_filter he)
  have hsplit := rMemSum_filter_split s.running
  have hcont0 : 0 ≤ rMemSum (s.running.filter (fun e => !(e.2 == 0))) :=
    rMemSum_nonneg _ hcontnn
  refine ⟨?_, ?_, ?_⟩
  · simp only [tick]
    rw [freeFold_used _ s.mm hfinsnn (by rw [hused]; linarith)]
    rw [rMemSum_map_dec, hused]
    linarith
  · intro p hp
    simp only [tick] at hp ⊢
    rw [freeFold_total]
    exact hqueue p hp
  · intro e he
    simp only [tick] at he
    rcases List.mem_map.mp he with ⟨r, hr, hre⟩
    have := hcontnn r hr
    rw [← hre]
    exact this

/-- Progress: an undrained pass from an idle scheduler starts something. -/
lemma doPass_progress (s : SchedState) (hinv : SchedInv s)
    (hne : s.queue ≠ []) (hrun : s.running = []) :
    (doPass s).running ≠ [] := by
  obtain ⟨hused, hqueue, _⟩ := hinv
  have hused0 : s.mm.used_mb = 0 := by
    rw [hused, hrun]; simp [rMemSum]
  obtain ⟨p, rest, hq⟩ := List.exists_cons_of_ne_nil hne
  have hp := hqueue p (hq ▸ List.mem_cons_self p rest)
  have hstart : (startPass s.mm.total_mb s.queue s.mm.used_mb).started ≠ [] := by
    rw [hq, hused0]
    exact startPass_progress s.mm.total_mb p rest hp.1 hp.2
  simp only [doPass, hrun, List.nil_append, ne_eq, List.map_eq_nil_iff]
  exact hstart

/-- With enough fuel — one unit more than the loop measure — `run` drains
both the queue and the running set and returns. -/
lemma runFuel_drains (n : Nat) : ∀ s : SchedState, SchedInv s → loopMeasure s ≤ n →
    ∃ fin, runFuel (n + 1) s = some fin ∧ fin.queue = [] ∧ fin.running = [] := by
  induction n with
  | zero =>
    intro s hinv hm
    have hm0 : sumQ s.queue + sumR s.running ≤ 0 := hm
    have hq : s.queue = [] := by
      cases hq : s.queue with
      | nil => rfl
      | cons p rest =>
        exfalso
        rw [hq] at hm0
        simp only [sumQ, List.map_cons, List.sum_cons] at hm0
        omega
    have hr : s.running = [] := by
      cases hr : s.running with
      | nil => rfl
      | cons e rest =>
        exfalso
        rw [hr] at hm0
        simp only [sumR, List.map_cons, List.sum_cons] at hm0
        omega
    have hdone : isDone (doPass s) = true := by
      simp [isDone, doPass, hq, hr, startPass]
    refine ⟨doPass s, ?_, ?_, ?_⟩
    · simp only [runFuel, hdone, if_true]
    · simp [doPass, hq, startPass]
    · simp [doPass, hq, hr, startPass]
  | succ n ih =>
    intro s hinv hm
    by_cases hd : isDone (doPass s) = true
    · have hd2 : (doPass s).running = [] ∧ (doPass s).queue = [] := by
        simpa [isDone] using hd
      refine ⟨doPass s, ?_, hd2.2, hd2.1⟩
      simp only [runFuel, hd, if_true]
    · have hrun1 : (doPass s).running ≠ [] := by
        intro hr1
        apply hd
        have hq1 : (doPass s).queue = [] := by
          by_contra hq1
          have hrs : s.running = [] := by
            have hlen := congrArg List.length hr1
            simp only [doPass, List.length_append, List.length_map,
              List.length_nil] at hlen
            cases hrs : s.running with
            | nil => rfl
            | cons a b => rw [hrs] at hlen; simp at hlen
          have hqs : s.queue ≠ [] := by
            intro hqs
            apply hq1
            simp [doPass, hqs, startPass]
          exact doPass_progress s hinv hqs hrs hr1
        simp [isDone, hr1, hq1]
      have hdf : isDone (doPass s) = false := by
        revert hd
        cases isDone (doPass s) <;> simp
      have hinv1 : SchedInv (tick (doPass s)) := tick_inv _ (doPass_inv s hinv)
      have hm1 : loopMeasure (tick (doPass s)) ≤ n := by
        have h1 := doPass_measure s
        have h2 := tick_measure (doPass s) hrun1
        omega
      obtain ⟨fin, hfin, hfq, hfr⟩ := ih (tick (doPass s)) hinv1 hm1
      refine ⟨fin, ?_, hfq, hfr⟩
      simpa [runFuel, hdf] using hfin

/-- C5: for any finite list of intaken workloads, each with non-negative
memory requirement at most total capacity (durations are arbitrary finite
tick counts), some finite fuel makes the `run` loop exit, and the final
state has an empty queue and an empty running set. -/
theorem run_terminates (total : Int) (ps : List Process)
    (hps : ∀ p ∈ ps, 0 ≤ p.mem_mb ∧ p.mem_mb ≤ total) :
    ∃ n fin, runFuel n (initState total ps) = some fin ∧
      fin.queue = [] ∧ fin.running = [] := by
  have hinv : SchedInv (initState total ps) := by
    refine ⟨by simp [initState, MemoryManager.init, rMemSum], ?_, by simp [initState]⟩
    intro p hp
    simpa [initState, MemoryManager.init] using hps p hp
  obtain ⟨fin, hfin, hq, hr⟩ :=
    runFuel_drains (loopMeasure (initState total ps)) (initState total ps) hinv le_rfl
  exact ⟨loopMeasure (initState total ps) + 1, fin, hfin, hq, hr⟩

/-- Witness for C5 at the demo scenario: total 1024 with the four demo
workloads. -/
theorem run_terminates_witness :
    ∃ n fin,
      runFuel n (initState 1024 [editorP, compilerP, browserP, terminalP]) = some fin ∧
      fin.queue = [] ∧ fin.running = [] :=
  run_terminates 1024 [editorP, compilerP, browserP, terminalP] (by decide)

/-- Shifting a consecutive-integer enumeration by one step. -/
lemma range_map_shift (a : Int) (n : Nat) :
    (List.range (n + 1)).map (fun i : Nat => a + (i : Int)) =
      a :: (List.range n).map (fun i : Nat => (a + 1) + (i : Int)) := by
  induction n with
  | zero => rw [List.range_succ]; simp
  | succ n ih =>
    rw [List.range_succ, List.map_append, ih, List.range_succ, List.map_append]
    simp only [List.map_cons, List.map_nil, List.cons_append, List.append_assoc]
    congr 2
    push_cast
    ring_nf

/-- A pure-auto intake sequence appends processes carrying the consecutive
pids `next_pid, next_pid + 1, …`. -/
lemma runIntakes_auto (reqs : List AddReq) : ∀ s : IntakeState,
    (∀ r ∈ reqs, r.pid = none) →
    (runIntakes s reqs).queue.map Process.pid =
      s.queue.map Process.pid ++
        (List.range reqs.length).map (fun i : Nat => s.next_pid + (i : Int)) := by
  induction reqs with
  | nil => intro s _; simp [runIntakes]
  | cons r rest ih =>
    intro s hauto
    have hr : r.pid = none := hauto r (List.mem_cons_self r rest)
    have hrest : ∀ x ∈ rest, x.pid = none :=
      fun x hx => hauto x (List.mem_cons_of_mem r hx)
    have hstep : runIntakes s (r :: rest) =
        runIntakes (add_process s r).2 rest := by
      simp [runIntakes]
    rw [hstep, ih _ hrest]
    simp only [add_process, hr, genPid]
    rw [List.length_cons, range_map_shift s.next_pid rest.length]
    simp [List.map_append]

/-- Integer shifts of an enumeration are duplicate-free. -/
lemma range_map_nodup (a : Int) (n : Nat) :
    ((List.range n).map (fun i : Nat => a + (i : Int))).Nodup := by
  have hinj : Function.Injective (fun i : Nat => a + (i : Int)) := by
    intro i j h
    simp only at h
    have : (i : Int) = j := by linarith
    exact_mod_cast this
  exact (List.nodup_range n).map hinj

/-- C6 (amended): `add_process` with an explicitly supplied identifier uses
it as given and leaves the `next_pid` counter unchanged — there is no bump
past the explicit identifier — while auto-assigned identifiers come from
the counter, so a pure-auto intake sequence yields the consecutive,
pairwise-distinct pids `next_pid, next_pid + 1, …`; uniqueness holds only
among the auto-assigned identifiers, not across explicit ones. -/
theorem add_process_pid_spec (s : IntakeState) (name : Option String)
    (mem_mb : Int) (dur_ticks : Nat) (k : Int) (reqs : List AddReq)
    (hauto : ∀ r ∈ reqs, r.pid = none) :
    (add_process s
        { name := name, mem_mb := mem_mb, dur_ticks := dur_ticks,
          pid := some k }).2.next_pid = s.next_pid ∧
    (add_process s
        { name := name, mem_mb := mem_mb, dur_ticks := dur_ticks,
          pid := some k }).1.pid = k ∧
    (runIntakes s reqs).queue.map Process.pid =
      s.queue.map Process.pid ++
        (List.range reqs.length).map (fun i : Nat => s.next_pid + (i : Int)) ∧
    ((List.range reqs.length).map (fun i : Nat => s.next_pid + (i : Int))).Nodup :=
  ⟨rfl, rfl, runIntakes_auto reqs s hauto, range_map_nodup s.next_pid reqs.length⟩

/-- Witness for the amended C6: explicit pid 7 leaves the counter at 1;
two subsequent auto intakes get pids 1 and 2. -/
theorem add_process_pid_spec_witness :
    (add_process { next_pid := 1, queue := [] }
        { name := some "X", mem_mb := 100, dur_ticks := 10,
          pid := some 7 }).2.next_pid = 1 ∧
    (add_process { next_pid := 1, queue := [] }
        { name := some "X", mem_mb := 100, dur_ticks := 10,
          pid := some 7 }).1.pid = 7 ∧
    (runIntakes { next_pid := 1, queue := [] }
        [{ name := some "A", mem_mb := 100, dur_ticks := 10, pid := none },
         { name := some "B", mem_mb := 200, dur_ticks := 20, pid := none }]).queue.map
        Process.pid =
      (List.map Process.pid ([] : List Process)) ++
        (List.range 2).map (fun i : Nat => 1 + (i : Int)) ∧
    ((List.range 2).map (fun i : Nat => 1 + (i : Int))).Nodup :=
  add_process_pid_spec { next_pid := 1, queue := [] } (some "X") 100 10 7
    [{ name := some "A", mem_mb := 100, dur_ticks := 10, pid := none },
     { name := some "B", mem_mb := 200, dur_ticks := 20, pid := none }]
    (by decide)

/-- C6 (counterexample): intaking with explicit pid 1 and then with an
auto-assigned pid yields two processes that both carry pid 1: the
next-auto-identifier counter is not bumped past the explicit identifier,
so identifiers are not unique across the scheduler's lifetime. -/
theorem explicit_pid_collision :
    (runIntakes { next_pid := 1, queue := [] }
        [{ name := some "A", mem_mb := 100, dur_ticks := 10, pid := some 1 },
         { name := some "B", mem_mb := 200, dur_ticks := 20, pid := none }]).queue.map
        Process.pid = [1, 1] ∧
    ¬ ((runIntakes { next_pid := 1, queue := [] }
        [{ name := some "A", mem_mb := 100, dur_ticks := 10, pid := some 1 },
         { name := some "B", mem_mb := 200, dur_ticks := 20, pid := none }]).queue.map
        Process.pid).Nodup := by
  decide

/-- The pid conversion succeeds iff `pid` is absent or numeric. -/
lemma pidField_ok (kv : List (List Char × List Char)) :
    (pidField kv).isOk = presentOk parsePyInt (kvGet kv "pid".data) := by
  unfold pidField presentOk
  cases kvGet kv "pid".data with
  | none => rfl
  | some v => cases hv : parsePyInt v <;> simp [hv, Except.isOk, Except.toBool]

/-- The mem conversion succeeds iff `mem` is absent or numeric. -/
lemma memField_ok (kv : List (List Char × List Char)) :
    (memField kv).isOk = presentOk parsePyInt (kvGet kv "mem".data) := by
  unfold memField presentOk
  cases ho : kvGet kv "mem".data with
  | none => rfl
  | some v =>
    simp only [Option.getD_some]
    cases hv : parsePyInt v <;> simp [hv, Except.isOk, Except.toBool]

/-- The dur conversion succeeds iff `dur` is absent or numeric. -/
lemma durField_ok (kv : List (List Char × List Char)) :
    (durField kv).isOk = presentOk parsePyFloat (kvGet kv "dur".data) := by
  unfold durField presentOk
  cases ho : kvGet kv "dur".data with
  | none => rfl
  | some v =>
    simp only [Option.getD_some]
    cases hv : parsePyFloat v <;> simp [hv, Except.isOk, Except.toBool]

/-- A missing mem key converts to the default 0 without error. -/
lemma memField_default (kv : List (List Char × List Char))
    (h : kvGet kv "mem".data = none) : memField kv = .ok 0 := by
  unfold memField
  rw [h]
  rfl

/-- A missing dur key converts to the default 0 without error. -/
lemma durField_default (kv : List (List Char × List Char))
    (h : kvGet kv "dur".data = none) : durField kv = .ok 0 := by
  unfold durField
  rw [h]
  rfl

/-- C9 (amended): `parse_add_arg` succeeds exactly when each of the `pid`,
`mem` and `dur` keys is absent or carries a numeric value — a present
non-numeric value raises a `ValueError` before that definition reaches
intake — while a definition MISSING `mem` or `dur` is not rejected: the
missing field silently defaults to 0. -/
theorem parse_add_arg_spec (arg : String) :
    ((parse_add_arg arg).isOk = true ↔
      presentOk parsePyInt (kvGet (kvPairs arg.data) "pid".data) = true ∧
      presentOk parsePyInt (kvGet (kvPairs arg.data) "mem".data) = true ∧
      presentOk parsePyFloat (kvGet (kvPairs arg.data) "dur".data) = true) ∧
    (kvGet (kvPairs arg.data) "mem".data = none →
      ∀ spec, parse_add_arg arg = .ok spec → spec.mem = 0) ∧
    (kvGet (kvPairs arg.data) "dur".data = none →
      ∀ spec, parse_add_arg arg = .ok spec → spec.dur = 0) := by
  refine ⟨?_, ?_, ?_⟩
  · rw [← pidField_ok (kvPairs arg.data), ← memField_ok (kvPairs arg.data),
      ← durField_ok (kvPairs arg.data)]
    cases hp : pidField (kvPairs arg.data) <;>
      cases hm : memField (kvPairs arg.data) <;>
        cases hd : durField (kvPairs arg.data) <;>
          simp [parse_add_arg, hp, hm, hd, Except.isOk, Except.toBool]
  · intro h spec hok
    have hm0 : memField (kvPairs arg.data) = .ok 0 := memField_default _ h
    simp only [parse_add_arg, hm0] at hok
    cases hp : pidField (kvPairs arg.data) with
    | error e => rw [hp] at hok; simp at hok
    | ok pid =>
      rw [hp] at hok
      cases hd : durField (kvPairs arg.data) with
      | error e => rw [hd] at hok; simp at hok
      | ok dur =>
        rw [hd] at hok
        simp only [Except.ok.injEq] at hok
        rw [← hok]
  · intro h spec hok
    have hd0 : durField (kvPairs arg.data) = .ok 0 := durField_default _ h
    simp only [parse_add_arg, hd0] at hok
    cases hp : pidField (kvPairs arg.data) with
    | error e => rw [hp] at hok; simp at hok
    | ok pid =>
      rw [hp] at hok
      cases hm : memField (kvPairs arg.data) with
      | error e => rw [hm] at hok; simp at hok
      | ok mem =>
        rw [hm] at hok
        simp only [Except.ok.injEq] at hok
        rw [← hok]

/-- Witness for the amended C9 at the definition "name=X": it parses
successfully and its defaulted mem and dur are 0. -/
theorem parse_add_arg_spec_witness :
    (parse_add_arg "name=X").isOk = true ∧
    AddSpec.mem { pid := none, name := some "X", mem := 0, dur := 0 } = 0 ∧
    AddSpec.dur { pid := none, name := some "X", mem := 0, dur := 0 } = 0 := by
  have h := parse_add_arg_spec "name=X"
  exact ⟨h.1.mpr (by decide),
    h.2.1 (by rfl) { pid := none, name := some "X", mem := 0, dur := 0 } (by rfl),
    h.2.2 (by rfl) { pid := none, name := some "X", mem := 0, dur := 0 } (by rfl)⟩

/-- C9 (counterexample): the command-line definition "name=X" is missing
both required numeric fields, yet `parse_add_arg` does not reject it: it
returns a workload definition with mem defaulted to 0 and dur defaulted to
0, which then reaches the scheduler's intake. -/
theorem missing_fields_not_rejected :
    parse_add_arg "name=X" =
      .ok { pid := none, name := some "X", mem := 0, dur := 0 } := by
  rfl

end Simulador
